import Mathlib

/-!
Verification of the `SectionList` data structure (phosphor-sectionlist,
`src/index.ts`).

The source manages an AVL-style binary tree of spans.  A span is either a
leaf (a run of `count` equal sized sections with total size `size`) or a
branch with two children.  In the source every branch stores `count`,
`size` and `level` fields, but every branch that is ever produced passes
through `createBranch` or `updateBranch`, both of which recompute the
three fields from the current children, and the fields of a leaf are only
written consistently (`level` stays 0).  The aggregates therefore never go
stale, and the shallow embedding represents a branch by its two children
alone, with `count`, `size` and `level` as derived functions; this agrees
with the stored fields of every node the program can build.

JavaScript numbers are modelled exactly: `count`, `index` and `level` are
integral in every reachable call, and `size` / `offset` are modelled by
exact rationals, following the design note of the specification that
sizes and offsets are real valued and the comparisons are exact.
-/

/-- The node type used in the SectionList AVL tree (`ISpan`): a leaf holds
a run of equal sized sections, a branch holds two subtrees. -/
inductive Span : Type where
  | leaf (count : Int) (size : Rat) : Span
  | branch (left right : Span) : Span
deriving DecidableEq, Repr

namespace Span

/-- Total number of sections contained by the subtree (`ISpan.count`). -/
def count : Span → Int
  | .leaf c _ => c
  | .branch l r => l.count + r.count

/-- Total size of all sections contained by the subtree (`ISpan.size`). -/
def size : Span → Rat
  | .leaf _ s => s
  | .branch l r => l.size + r.size

/-- Level of the span in the tree; 0 exactly on leaves (`ISpan.level`). -/
def level : Span → Nat
  | .leaf _ _ => 0
  | .branch l r => max l.level r.level + 1

end Span

/-- `createLeaf`: a new leaf span with the given count and total size. -/
def createLeaf (count : Int) (size : Rat) : Span := .leaf count size

/-- `createBranch` and `updateBranch` of the source both produce a branch
whose aggregates are recomputed from the two children; with derived
aggregates both are plain branch construction. -/
def createBranch (left right : Span) : Span := .branch left right

namespace Span

/-- The descent loop of the free function `indexOf(span, offset)`,
written as structural recursion (the loop accumulates `index` additively,
which commutes with the recursive formulation). -/
def indexOf : Span → Rat → Int
  | .leaf c s, offset => Int.floor (offset * (c : Rat) / s)
  | .branch l r, offset =>
      if offset < l.size then indexOf l offset
      else l.count + indexOf r (offset - l.size)

/-- The descent loop of the free function `offsetOf(span, index)`. -/
def offsetOf : Span → Int → Rat
  | .leaf c s, index => (index : Rat) * s / (c : Rat)
  | .branch l r, index =>
      if index < l.count then offsetOf l index
      else l.size + offsetOf r (index - l.count)

/-- The descent loop of the free function `sizeOf(span, index)`. -/
def sizeOf : Span → Int → Rat
  | .leaf c s, _ => s / (c : Rat)
  | .branch l r, index =>
      if index < l.count then sizeOf l index
      else sizeOf r (index - l.count)

/-- Balance factor `left.level - right.level` of a branch. -/
def bal : Span → Int
  | .leaf _ _ => 0
  | .branch l r => (l.level : Int) - (r.level : Int)

end Span

/-- The free function `rebalance(span)`.  The source reads only
`span.left` and `span.right` (the aggregate fields it returns are
recomputed by the final `updateBranch`), so stale fields of the argument
never matter.  The three `.branch left right` fallback arms correspond to
reading a child of a `null` pointer in the source; the level arithmetic
of the guarding conditions makes them unreachable (a span of level 2 or
more is a branch). -/
def rebalance (span : Span) : Span :=
  match span with
  | .leaf c s => .leaf c s
  | .branch left right =>
    let balance : Int := (left.level : Int) - (right.level : Int)
    if 1 < balance then
      match left with
      | .leaf lc ls => .branch (.leaf lc ls) right
      | .branch subLeft subRight =>
        if subRight.level < subLeft.level then
          -- Left-Left
          .branch subLeft (.branch subRight right)
        else
          -- Left-Right
          match subRight with
          | .leaf sc ss => .branch (.branch subLeft (.leaf sc ss)) right
          | .branch srl srr => .branch (.branch subLeft srl) (.branch srr right)
    else if balance < -1 then
      match right with
      | .leaf rc rs => .branch left (.leaf rc rs)
      | .branch subLeft subRight =>
        if subLeft.level < subRight.level then
          -- Right-Right
          .branch (.branch left subLeft) subRight
        else
          -- Right-Left
          match subLeft with
          | .leaf sc ss => .branch left (.branch (.leaf sc ss) subRight)
          | .branch sll slr => .branch (.branch left sll) (.branch slr subRight)
    else
      .branch left right

/-- The rebalancing do-while loop of `remove`: rebalance once, then keep
rebalancing while the balance factor still lies outside `[-1, 1]`, with
an explicit iteration budget.  The theorems below prove that a budget of
`2 * span.level + 1` always reaches the exit condition and that any
larger budget returns the same span, so with that budget this function
computes exactly what the unbounded source loop computes. -/
def rebalanceLoop : Nat → Span → Span
  | 0, s => rebalance s
  | n + 1, s =>
      let t := rebalance s
      if 1 < t.bal.natAbs then rebalanceLoop n t else t

/-- Hoisting epilogue of `remove`: if the span is still a branch, run the
rebalancing loop. -/
def hoistRebalance (s : Span) : Span :=
  if 0 < s.level then rebalanceLoop (2 * s.level + 1) s else s

namespace Span

/-- The free function `insert(span, index, count, size)`. -/
def insert : Span → Int → Int → Rat → Span
  | .leaf c s, index, count, size =>
    -- extend: the new sections have the per section size of this leaf
    if size = s / (c : Rat) then .leaf (c + count) (s + (count : Rat) * size)
    -- before
    else if index = 0 then
      createBranch (createLeaf count ((count : Rat) * size)) (.leaf c s)
    -- after
    else if c ≤ index then
      createBranch (.leaf c s) (createLeaf count ((count : Rat) * size))
    -- split
    else
      let rest := c - index
      let each := s / (c : Rat)
      createBranch (createLeaf index ((index : Rat) * each))
        (createBranch (createLeaf count ((count : Rat) * size))
          (createLeaf rest ((rest : Rat) * each)))
  | .branch left right, index, count, size =>
    if index < left.count then
      rebalance (.branch (insert left index count size) right)
    else
      rebalance (.branch left (insert right (index - left.count) count size))

/-- The free function `remove(span, index, count)`; `none` is the `null`
return.  The `none, none` arm cannot arise: a recursive call returns
`none` only when its count argument covers its whole subtree, and both
children vanishing together would mean `count = span.count`, which the
first guard already handled. -/
def remove : Span → Int → Int → Option Span
  | span@(.leaf c s), _, count =>
      if count = span.count then none
      else
        let rest := c - count
        let each := s / (c : Rat)
        some (.leaf rest ((rest : Rat) * each))
  | span@(.branch left right), index, count =>
      if count = span.count then none
      else
        let pair :=
          if index < left.count ∧ left.count < index + count then
            let tail := left.count - index
            (remove left index tail, remove right 0 (count - tail))
          else if index < left.count then
            (remove left index count, some right)
          else
            (some left, remove right (index - left.count) count)
        match pair with
        | (none, none) => none
        | (none, some r) => some (hoistRebalance r)
        | (some l, none) => some (hoistRebalance l)
        | (some l, some r) => some (hoistRebalance (.branch l r))

end Span

/-- The facade: the `SectionList` class, owning an optional root span. -/
structure SectionList where
  root : Option Span
deriving DecidableEq, Repr

namespace SectionList

/-- A fresh `SectionList` (the `_root = null` initializer). -/
def empty : SectionList := ⟨none⟩

/-- The `count` getter. -/
def count (l : SectionList) : Int :=
  match l.root with
  | none => 0
  | some t => t.count

/-- The `size` getter. -/
def size (l : SectionList) : Rat :=
  match l.root with
  | none => 0
  | some t => t.size

/-- The `indexOf` method. -/
def indexOf (l : SectionList) (offset : Rat) : Int :=
  match l.root with
  | none => -1
  | some t => if offset < 0 ∨ t.size ≤ offset then -1 else Span.indexOf t offset

/-- The `offsetOf` method; the sentinel `-1` is returned as a number. -/
def offsetOf (l : SectionList) (index : Rat) : Rat :=
  match l.root with
  | none => -1
  | some t =>
      let i := Int.floor index
      if i < 0 ∨ t.count ≤ i then -1 else Span.offsetOf t i

/-- The `sizeOf` method. -/
def sizeOf (l : SectionList) (index : Rat) : Rat :=
  match l.root with
  | none => -1
  | some t =>
      let i := Int.floor index
      if i < 0 ∨ t.count ≤ i then -1 else Span.sizeOf t i

/-- The `insert` method; the state is paired with the returned number. -/
def insert (l : SectionList) (index count size : Rat) : SectionList × Int :=
  let ct := Int.floor count
  if ct ≤ 0 then (l, -1)
  else
    match l.root with
    | none => (⟨some (createLeaf ct ((ct : Rat) * max 0 size))⟩, 0)
    | some t =>
        let i := max 0 (min (Int.floor index) t.count)
        (⟨some (Span.insert t i ct (max 0 size))⟩, i)

/-- The `remove` method; the state is paired with the returned number. -/
def remove (l : SectionList) (index count : Rat) : SectionList × Int :=
  match l.root with
  | none => (l, 0)
  | some t =>
      let ct := Int.floor count
      if ct ≤ 0 then (l, 0)
      else
        let s := Int.floor index
        let i := max 0 s
        let j := min (s + ct - 1) (t.count - 1)
        let n := j - i + 1
        if n ≤ 0 then (l, 0)
        else (⟨Span.remove t i n⟩, n)

/-- The `resize` method; the state is paired with the returned number. -/
def resize (l : SectionList) (index count size : Rat) : SectionList × Int :=
  match l.root with
  | none => (l, 0)
  | some t =>
      let ct := Int.floor count
      if ct ≤ 0 then (l, 0)
      else
        let s := Int.floor index
        let i := max 0 s
        let j := min (s + ct - 1) (t.count - 1)
        let n := j - i + 1
        if n ≤ 0 then (l, 0)
        else
          match Span.remove t i n with
          | none => (⟨some (createLeaf n ((n : Rat) * max 0 size))⟩, n)
          | some t' => (⟨some (Span.insert t' i n (max 0 size))⟩, n)

end SectionList

namespace Span

/-- Structural well formedness used throughout: every leaf holds a
positive number of sections (invariant 1 of the specification; it is
established below for every reachable state). -/
def wfB : Span → Bool
  | .leaf c _ => decide (0 < c)
  | .branch l r => l.wfB && r.wfB

/-- Positivity: every leaf has a positive count and a positive size, so
every section has a positive size. -/
def posB : Span → Bool
  | .leaf c s => decide (0 < c) && decide (0 < s)
  | .branch l r => l.posB && r.posB

/-- The recursive AVL balance check: every branch has a balance factor
in `[-1, 1]`. -/
def balancedB : Span → Bool
  | .leaf _ _ => true
  | .branch l r =>
      decide (((l.level : Int) - (r.level : Int)).natAbs ≤ 1) && l.balancedB && r.balancedB

/-- The in order sequence of per section sizes described by a span: the
observable content of the tree (each leaf contributes `count` sections
of size `size / count`). -/
def secSizes : Span → List Rat
  | .leaf c s => List.replicate c.toNat (s / (c : Rat))
  | .branch l r => secSizes l ++ secSizes r

end Span

namespace SectionList

/-- Well formedness of a list state. -/
def wfB (l : SectionList) : Bool :=
  match l.root with
  | none => true
  | some t => t.wfB

/-- Positivity of a list state. -/
def posB (l : SectionList) : Bool :=
  match l.root with
  | none => true
  | some t => t.posB

/-- Recursive balance of a list state. -/
def balancedB (l : SectionList) : Bool :=
  match l.root with
  | none => true
  | some t => t.balancedB

/-- The in order sequence of per section sizes held by the list. -/
def secList (l : SectionList) : List Rat :=
  match l.root with
  | none => []
  | some t => t.secSizes

end SectionList

/-- A list state is reachable when it arises from the empty list by a
sequence of public `insert` / `remove` / `resize` calls. -/
inductive Reachable : SectionList → Prop
  | empty : Reachable SectionList.empty
  | insert (l : SectionList) (index count size : Rat) :
      Reachable l → Reachable (l.insert index count size).1
  | remove (l : SectionList) (index count : Rat) :
      Reachable l → Reachable (l.remove index count).1
  | resize (l : SectionList) (index count size : Rat) :
      Reachable l → Reachable (l.resize index count size).1

/-- A concrete reachable family: append `n` single sections of pairwise
distinct sizes to the empty list, one public `insert` call each. -/
def buildN : Nat → SectionList
  | 0 => SectionList.empty
  | n + 1 => ((buildN n).insert ((buildN n).count : Rat) 1 (10 * ((n : Rat) + 1))).1

/-! ### Preservation properties of `rebalance` -/

lemma rebalance_count (s : Span) : (rebalance s).count = s.count := by
  cases s with
  | leaf c sz => rfl
  | branch l r =>
    simp only [rebalance]
    split
    · cases l with
      | leaf lc ls => simp [Span.count]
      | branch a b =>
        dsimp only
        split
        · simp [Span.count]; ring
        · cases b with
          | leaf sc ss => simp [Span.count]
          | branch c d => simp [Span.count]; ring
    · split
      · cases r with
        | leaf rc rs => simp [Span.count]
        | branch c d =>
          dsimp only
          split
          · simp [Span.count]; ring
          · cases c with
            | leaf sc ss => simp [Span.count]
            | branch e f => simp [Span.count]; ring
      · rfl

lemma rebalance_size (s : Span) : (rebalance s).size = s.size := by
  cases s with
  | leaf c sz => rfl
  | branch l r =>
    simp only [rebalance]
    split
    · cases l with
      | leaf lc ls => simp [Span.size]
      | branch a b =>
        dsimp only
        split
        · simp [Span.size]; ring
        · cases b with
          | leaf sc ss => simp [Span.size]
          | branch c d => simp [Span.size]; ring
    · split
      · cases r with
        | leaf rc rs => simp [Span.size]
        | branch c d =>
          dsimp only
          split
          · simp [Span.size]; ring
          · cases c with
            | leaf sc ss => simp [Span.size]
            | branch e f => simp [Span.size]; ring
      · rfl

lemma rebalance_secSizes (s : Span) : (rebalance s).secSizes = s.secSizes := by
  cases s with
  | leaf c sz => rfl
  | branch l r =>
    simp only [rebalance]
    split
    · cases l with
      | leaf lc ls => simp [Span.secSizes]
      | branch a b =>
        dsimp only
        split
        · simp [Span.secSizes, List.append_assoc]
        · cases b with
          | leaf sc ss => simp [Span.secSizes]
          | branch c d => simp [Span.secSizes, List.append_assoc]
    · split
      · cases r with
        | leaf rc rs => simp [Span.secSizes]
        | branch c d =>
          dsimp only
          split
          · simp [Span.secSizes, List.append_assoc]
          · cases c with
            | leaf sc ss => simp [Span.secSizes]
            | branch e f => simp [Span.secSizes, List.append_assoc]
      · rfl

lemma rebalance_wfB (s : Span) : (rebalance s).wfB = s.wfB := by
  cases s with
  | leaf c sz => rfl
  | branch l r =>
    simp only [rebalance]
    split
    · cases l with
      | leaf lc ls => simp [Span.wfB]
      | branch a b =>
        dsimp only
        split
        · simp [Span.wfB, Bool.and_assoc]
        · cases b with
          | leaf sc ss => simp [Span.wfB]
          | branch c d => simp [Span.wfB, Bool.and_assoc]
    · split
      · cases r with
        | leaf rc rs => simp [Span.wfB]
        | branch c d =>
          dsimp only
          split
          · simp [Span.wfB, Bool.and_assoc]
          · cases c with
            | leaf sc ss => simp [Span.wfB]
            | branch e f => simp [Span.wfB, Bool.and_assoc]
      · rfl

/-! ### Termination of the rebalancing loop of `remove`

Each loop iteration either strictly lowers the level of the span, or
(exactly when a Left-Right or Right-Left rotation fires on a subtree
whose two grandchildren have equal levels) keeps the level while
guaranteeing that the next iteration lowers it.  The measure `mu`
packages this: twice the level plus a one-bit flag marking the
level-preserving situation. -/

namespace Span

/-- Flag of the measure: 1 exactly when the pending rotation is the
level preserving Left-Right or Right-Left case. -/
def flag : Span → Nat
  | .leaf _ _ => 0
  | .branch l r =>
    if 1 < (l.level : Int) - (r.level : Int) then
      match l with
      | .branch a b => if a.level = b.level then 1 else 0
      | .leaf _ _ => 0
    else if (l.level : Int) - (r.level : Int) < -1 then
      match r with
      | .branch c d => if c.level = d.level then 1 else 0
      | .leaf _ _ => 0
    else 0

/-- Termination measure for the rebalancing loop. -/
def mu (s : Span) : Nat := 2 * s.level + s.flag

lemma flag_le_one (s : Span) : s.flag ≤ 1 := by
  cases s with
  | leaf c sz => simp [flag]
  | branch l r =>
    simp only [flag]
    split
    · split
      · split <;> omega
      · omega
    · split
      · split
        · split <;> omega
        · omega
      · omega

end Span

/-- Whenever the loop condition still holds after a `rebalance`, the
measure has strictly decreased; hence the do-while loop of `remove`
terminates. -/
lemma mu_decrease (s : Span) (h : 1 < (rebalance s).bal.natAbs) :
    (rebalance s).mu < s.mu := by
  cases s with
  | leaf c sz => simp [rebalance, Span.bal] at h
  | branch l r =>
    simp only [rebalance] at h ⊢
    by_cases hB : 1 < (l.level : Int) - (r.level : Int)
    · rw [if_pos hB] at h ⊢
      cases l with
      | leaf lc ls => simp [Span.level] at hB; omega
      | branch a b =>
        dsimp only at h ⊢
        by_cases hab : b.level < a.level
        · -- Left-Left: the level drops strictly.
          rw [if_pos hab] at h ⊢
          have hf := Span.flag_le_one (Span.branch a (.branch b r))
          simp only [Span.level] at hB ⊢
          simp only [Span.mu, Span.level]
          omega
        · rw [if_neg hab] at h ⊢
          cases b with
          | leaf sc ss => simp [Span.level] at hB hab; omega
          | branch c d =>
            dsimp only at h ⊢
            rcases Nat.lt_or_ge a.level (Span.branch c d).level with hlt | hge
            · -- Left-Right with a strictly lower left grandchild:
              -- the level drops strictly.
              have hf := Span.flag_le_one
                (Span.branch (.branch a c) (.branch d r))
              simp only [Span.level] at hB hlt ⊢
              simp only [Span.mu, Span.level]
              omega
            · -- Left-Right with equal grandchild levels: the level is
              -- preserved and the flag drops from 1 to 0.
              have heq : a.level = (Span.branch c d).level := by
                simp only [Span.level] at hab hge ⊢; omega
              simp only [Span.level] at hB heq
              simp only [Span.mu, Span.flag, Span.level]
              split_ifs <;> omega
    · rw [if_neg hB] at h ⊢
      by_cases hB2 : (l.level : Int) - (r.level : Int) < -1
      · rw [if_pos hB2] at h ⊢
        cases r with
        | leaf rc rs => simp [Span.level] at hB2; omega
        | branch c d =>
          dsimp only at h ⊢
          by_cases hcd : c.level < d.level
          · -- Right-Right: the level drops strictly.
            rw [if_pos hcd] at h ⊢
            have hf := Span.flag_le_one (Span.branch (.branch l c) d)
            simp only [Span.level] at hB2 ⊢
            simp only [Span.mu, Span.level]
            omega
          · rw [if_neg hcd] at h ⊢
            cases c with
            | leaf sc ss => simp [Span.level] at hB2 hcd; omega
            | branch e f =>
              dsimp only at h ⊢
              rcases Nat.lt_or_ge d.level (Span.branch e f).level with hlt | hge
              · -- Right-Left with a strictly lower right grandchild.
                have hf := Span.flag_le_one
                  (Span.branch (.branch l e) (.branch f d))
                simp only [Span.level] at hB2 hlt ⊢
                simp only [Span.mu, Span.level]
                omega
              · -- Right-Left with equal grandchild levels.
                have heq : d.level = (Span.branch e f).level := by
                  simp only [Span.level] at hcd hge ⊢; omega
                simp only [Span.level] at hB2 heq
                simp only [Span.mu, Span.flag, Span.level]
                split_ifs <;> omega
      · -- Balanced: `rebalance` only rebuilds the branch, so the loop
        -- condition cannot hold.
        rw [if_neg hB2] at h
        simp only [Span.bal] at h
        omega

/-! ### The rebalancing loop: preservation, exit condition, stability -/

lemma rebalanceLoop_count (n : Nat) : ∀ s, (rebalanceLoop n s).count = s.count := by
  induction n with
  | zero => intro s; simp [rebalanceLoop, rebalance_count]
  | succ n ih =>
      intro s
      simp only [rebalanceLoop]
      split
      · rw [ih, rebalance_count]
      · rw [rebalance_count]

lemma rebalanceLoop_size (n : Nat) : ∀ s, (rebalanceLoop n s).size = s.size := by
  induction n with
  | zero => intro s; simp [rebalanceLoop, rebalance_size]
  | succ n ih =>
      intro s
      simp only [rebalanceLoop]
      split
      · rw [ih, rebalance_size]
      · rw [rebalance_size]

lemma rebalanceLoop_secSizes (n : Nat) :
    ∀ s, (rebalanceLoop n s).secSizes = s.secSizes := by
  induction n with
  | zero => intro s; simp [rebalanceLoop, rebalance_secSizes]
  | succ n ih =>
      intro s
      simp only [rebalanceLoop]
      split
      · rw [ih, rebalance_secSizes]
      · rw [rebalance_secSizes]

lemma rebalanceLoop_wfB (n : Nat) : ∀ s, (rebalanceLoop n s).wfB = s.wfB := by
  induction n with
  | zero => intro s; simp [rebalanceLoop, rebalance_wfB]
  | succ n ih =>
      intro s
      simp only [rebalanceLoop]
      split
      · rw [ih, rebalance_wfB]
      · rw [rebalance_wfB]

lemma level_eq_zero_iff (s : Span) : s.level = 0 ↔ ∃ c sz, s = .leaf c sz := by
  cases s with
  | leaf c sz => simp [Span.level]
  | branch l r => simp [Span.level]

/-- With a fuel of at least `mu`, the loop reaches its exit condition:
the balance factor of the result lies in `[-1, 1]`. -/
lemma rebalanceLoop_exit (n : Nat) :
    ∀ s, s.mu ≤ n → (rebalanceLoop n s).bal.natAbs ≤ 1 := by
  induction n with
  | zero =>
      intro s hs
      have h0 : s.level = 0 := by simp [Span.mu] at hs; omega
      obtain ⟨c, sz, rfl⟩ := (level_eq_zero_iff s).1 h0
      simp [rebalanceLoop, rebalance, Span.bal]
  | succ n ih =>
      intro s hs
      simp only [rebalanceLoop]
      split
      · next hcond =>
          exact ih _ (by have := mu_decrease s hcond; omega)
      · next hcond => omega

/-- Extra fuel beyond `mu` never changes the result of the loop, so the
bounded loop used in the model computes the value of the unbounded
do-while loop of the source. -/
lemma rebalanceLoop_stable (n : Nat) :
    ∀ s m, s.mu ≤ n → rebalanceLoop (n + m) s = rebalanceLoop n s := by
  induction n with
  | zero =>
      intro s m hs
      have h0 : s.level = 0 := by simp [Span.mu] at hs; omega
      obtain ⟨c, sz, rfl⟩ := (level_eq_zero_iff s).1 h0
      cases m with
      | zero => rfl
      | succ m =>
          show rebalanceLoop (m + 1) (.leaf c sz) = rebalance (.leaf c sz)
          simp [rebalanceLoop, rebalance, Span.bal]
  | succ n ih =>
      intro s m hs
      have hstep : Nat.succ n + m = (n + m) + 1 := by omega
      rw [hstep]
      simp only [rebalanceLoop]
      split
      · next hcond =>
          exact ih _ m (by have := mu_decrease s hcond; omega)
      · rfl

/-! ### The hoisting epilogue of `remove` -/

lemma hoistRebalance_count (s : Span) : (hoistRebalance s).count = s.count := by
  unfold hoistRebalance
  split
  · rw [rebalanceLoop_count]
  · rfl

lemma hoistRebalance_size (s : Span) : (hoistRebalance s).size = s.size := by
  unfold hoistRebalance
  split
  · rw [rebalanceLoop_size]
  · rfl

lemma hoistRebalance_secSizes (s : Span) :
    (hoistRebalance s).secSizes = s.secSizes := by
  unfold hoistRebalance
  split
  · rw [rebalanceLoop_secSizes]
  · rfl

lemma hoistRebalance_wfB (s : Span) : (hoistRebalance s).wfB = s.wfB := by
  unfold hoistRebalance
  split
  · rw [rebalanceLoop_wfB]
  · rfl

/-! ### Unconditional accounting for `Span.remove` -/

/-- `remove` returns `null` exactly when the removed range is the whole
subtree. -/
lemma remove_none_iff (t : Span) :
    ∀ (i c : Int), Span.remove t i c = none ↔ c = t.count := by
  induction t with
  | leaf cc ss =>
      intro i c
      simp only [Span.remove]
      split
      · next h => simp [h]
      · next h => simp [h]
  | branch l r ihl ihr =>
      intro i c
      simp only [Span.remove]
      split
      · next h => simp [h]
      · next h =>
          constructor
          · intro hnone
            exfalso
            by_cases h1 : i < l.count ∧ l.count < i + c
            · rw [if_pos h1] at hnone
              rcases hL : Span.remove l i (l.count - i) with _ | l'
              · rcases hR : Span.remove r 0 (c - (l.count - i)) with _ | r'
                · have e1 := (ihl i (l.count - i)).1 hL
                  have e2 := (ihr 0 (c - (l.count - i))).1 hR
                  apply h
                  simp only [Span.count]
                  omega
                · rw [hL, hR] at hnone
                  simp at hnone
              · rcases hR : Span.remove r 0 (c - (l.count - i)) with _ | r' <;>
                  rw [hL, hR] at hnone <;> simp at hnone
            · rw [if_neg h1] at hnone
              by_cases h2 : i < l.count
              · rw [if_pos h2] at hnone
                rcases hL : Span.remove l i c with _ | l' <;>
                  rw [hL] at hnone <;> simp at hnone
              · rw [if_neg h2] at hnone
                rcases hR : Span.remove r (i - l.count) c with _ | r' <;>
                  rw [hR] at hnone <;> simp at hnone
          · intro hc
            exact absurd hc h

/-- Removing `c` sections lowers the section count by exactly `c`. -/
lemma remove_count (t : Span) :
    ∀ (i c : Int) (t' : Span), Span.remove t i c = some t' →
      t'.count = t.count - c := by
  induction t with
  | leaf cc ss =>
      intro i c t' ht
      simp only [Span.remove] at ht
      split at ht
      · exact absurd ht (by simp)
      · next h =>
          have : t' = Span.leaf (cc - c) ((((cc - c) : Int) : Rat) * (ss / (cc : Rat))) := by
            simpa using ht.symm
          subst this
          simp [Span.count]
  | branch l r ihl ihr =>
      intro i c t' ht
      simp only [Span.remove] at ht
      split at ht
      · exact absurd ht (by simp)
      · next h =>
          by_cases h1 : i < l.count ∧ l.count < i + c
          · rw [if_pos h1] at ht
            rcases hL : Span.remove l i (l.count - i) with _ | l' <;>
              rcases hR : Span.remove r 0 (c - (l.count - i)) with _ | r' <;>
                rw [hL, hR] at ht <;> simp at ht
            · -- left child vanished
              have e1 := (remove_none_iff l i (l.count - i)).1 hL
              have e2 := ihr 0 (c - (l.count - i)) r' hR
              rw [← ht, hoistRebalance_count]
              simp only [Span.count]
              omega
            · -- right child vanished
              have e2 := (remove_none_iff r 0 (c - (l.count - i))).1 hR
              have e1 := ihl i (l.count - i) l' hL
              rw [← ht, hoistRebalance_count]
              simp only [Span.count]
              omega
            · have e1 := ihl i (l.count - i) l' hL
              have e2 := ihr 0 (c - (l.count - i)) r' hR
              rw [← ht, hoistRebalance_count]
              simp only [Span.count]
              omega
          · rw [if_neg h1] at ht
            by_cases h2 : i < l.count
            · rw [if_pos h2] at ht
              rcases hL : Span.remove l i c with _ | l' <;>
                rw [hL] at ht <;> simp at ht
              · have e1 := (remove_none_iff l i c).1 hL
                rw [← ht, hoistRebalance_count]
                simp only [Span.count]
                omega
              · have e1 := ihl i c l' hL
                rw [← ht, hoistRebalance_count]
                simp only [Span.count]
                omega
            · rw [if_neg h2] at ht
              rcases hR : Span.remove r (i - l.count) c with _ | r' <;>
                rw [hR] at ht <;> simp at ht
              · have e2 := (remove_none_iff r (i - l.count) c).1 hR
                rw [← ht, hoistRebalance_count]
                simp only [Span.count]
                omega
              · have e2 := ihr (i - l.count) c r' hR
                rw [← ht, hoistRebalance_count]
                simp only [Span.count]
                omega

/-! ### Accounting for `Span.insert` -/

lemma insert_count (t : Span) :
    ∀ (i ct : Int) (z : Rat), (Span.insert t i ct z).count = t.count + ct := by
  induction t with
  | leaf c s =>
      intro i ct z
      simp only [Span.insert]
      split_ifs <;> simp [Span.count, createBranch, createLeaf] <;> ring
  | branch l r ihl ihr =>
      intro i ct z
      simp only [Span.insert]
      split
      · rw [rebalance_count]
        simp only [Span.count, ihl]
        ring
      · rw [rebalance_count]
        simp only [Span.count, ihr]
        ring

/-- Well formed spans have a positive section count. -/
lemma wf_count_pos (t : Span) (h : t.wfB = true) : 0 < t.count := by
  induction t with
  | leaf c s => simp [Span.wfB] at h; simpa [Span.count] using h
  | branch l r ihl ihr =>
      simp only [Span.wfB, Bool.and_eq_true] at h
      have := ihl h.1
      have := ihr h.2
      simp only [Span.count]
      omega

lemma insert_size (t : Span) :
    ∀ (i ct : Int) (z : Rat), t.wfB = true →
      (Span.insert t i ct z).size = t.size + (ct : Rat) * z := by
  induction t with
  | leaf c s =>
      intro i ct z hw
      have hc : ((c : Int) : Rat) ≠ 0 := by
        simp only [Span.wfB, decide_eq_true_eq] at hw
        exact_mod_cast Int.ne_of_gt hw
      simp only [Span.insert]
      split_ifs with h1 h2 h3
      · simp [Span.size]
      · simp [Span.size, createBranch, createLeaf] <;> ring
      · simp [Span.size, createBranch, createLeaf]
      · simp only [Span.size, createBranch, createLeaf]
        field_simp
        ring
  | branch l r ihl ihr =>
      intro i ct z hw
      simp only [Span.wfB, Bool.and_eq_true] at hw
      simp only [Span.insert]
      split
      · rw [rebalance_size]
        simp only [Span.size, ihl i ct z hw.1]
        ring
      · rw [rebalance_size]
        simp only [Span.size, ihr (i - l.count) ct z hw.2]
        ring

lemma insert_wfB (t : Span) :
    ∀ (i ct : Int) (z : Rat), t.wfB = true → 0 < ct → 0 ≤ i →
      (Span.insert t i ct z).wfB = true := by
  induction t with
  | leaf c s =>
      intro i ct z hw hct hi
      simp only [Span.wfB, decide_eq_true_eq] at hw
      simp only [Span.insert]
      split_ifs with h1 h2 h3 <;>
        simp only [createBranch, createLeaf, Span.wfB, Bool.and_eq_true,
          decide_eq_true_eq] <;>
        omega
  | branch l r ihl ihr =>
      intro i ct z hw hct hi
      simp only [Span.wfB, Bool.and_eq_true] at hw
      simp only [Span.insert]
      split
      · next hlt =>
          rw [rebalance_wfB]
          simp only [Span.wfB, Bool.and_eq_true]
          exact ⟨ihl i ct z hw.1 hct hi, hw.2⟩
      · next hge =>
          rw [rebalance_wfB]
          simp only [Span.wfB, Bool.and_eq_true]
          have hlc : 0 < l.count := wf_count_pos l hw.1
          exact ⟨hw.1, ihr (i - l.count) ct z hw.2 hct (by omega)⟩

/-! ### The section size sequence -/

lemma secSizes_length (t : Span) (h : t.wfB = true) :
    ((t.secSizes).length : Int) = t.count := by
  induction t with
  | leaf c s =>
      simp only [Span.wfB, decide_eq_true_eq] at h
      simp only [Span.secSizes, List.length_replicate, Span.count]
      omega
  | branch l r ihl ihr =>
      simp only [Span.wfB, Bool.and_eq_true] at h
      simp only [Span.secSizes, List.length_append, Span.count]
      push_cast
      rw [ihl h.1, ihr h.2]

lemma secSizes_sum (t : Span) (h : t.wfB = true) :
    (t.secSizes).sum = t.size := by
  induction t with
  | leaf c s =>
      simp only [Span.wfB, decide_eq_true_eq] at h
      have hc : ((c : Int) : Rat) ≠ 0 := by exact_mod_cast Int.ne_of_gt h
      have hcN : ((c.toNat : Nat) : Rat) = ((c : Int) : Rat) := by
        have h2 : ((c.toNat : Nat) : Int) = c := Int.toNat_of_nonneg (le_of_lt h)
        exact_mod_cast h2
      simp only [Span.secSizes, List.sum_replicate, Span.size, nsmul_eq_mul, hcN]
      field_simp
  | branch l r ihl ihr =>
      simp only [Span.wfB, Bool.and_eq_true] at h
      simp only [Span.secSizes, List.sum_append, Span.size, ihl h.1, ihr h.2]

/-- Inserting `ct` sections of size `z` at position `i` splices a block
of `ct` copies of `z` into the section size sequence at position `i`. -/
lemma insert_secSizes (t : Span) :
    ∀ (i ct : Int) (z : Rat), t.wfB = true → 0 < ct → 0 ≤ i → i ≤ t.count →
      (Span.insert t i ct z).secSizes =
        (t.secSizes).take i.toNat ++ List.replicate ct.toNat z ++
          (t.secSizes).drop i.toNat := by
  induction t with
  | leaf c s =>
      intro i ct z hw hct hi hile
      simp only [Span.wfB, decide_eq_true_eq] at hw
      simp only [Span.count] at hile
      have hcR : (0 : Rat) < ((c : Int) : Rat) := by exact_mod_cast hw
      have hctR : (0 : Rat) < ((ct : Int) : Rat) := by exact_mod_cast hct
      simp only [Span.insert]
      split_ifs with h1 h2 h3
      · -- extend: the leaf absorbs the new sections
        have hs : s = z * ((c : Int) : Rat) := by
          rw [h1]
          field_simp
        have hper : (s + ((ct : Int) : Rat) * z) / (((c + ct : Int)) : Rat) = z := by
          rw [hs]
          push_cast
          rw [div_eq_iff (by positivity)]
          ring
        have hz : s / ((c : Int) : Rat) = z := h1.symm
        simp only [Span.secSizes, hper, hz, List.take_replicate, List.drop_replicate]
        rw [← List.replicate_add, ← List.replicate_add]
        congr 1
        omega
      · -- before: new leaf prepended
        have hz : (((ct : Int) : Rat) * z) / ((ct : Int) : Rat) = z := by
          field_simp
        subst h2
        simp [createBranch, createLeaf, Span.secSizes, hz]
      · -- after: new leaf appended
        have hz : (((ct : Int) : Rat) * z) / ((ct : Int) : Rat) = z := by
          field_simp
        have hieq : i = c := le_antisymm hile h3
        subst hieq
        simp only [createBranch, createLeaf, Span.secSizes, hz,
          List.take_replicate, List.drop_replicate]
        rw [min_eq_right (le_refl _), Nat.sub_self]
        simp
      · -- split: the leaf is cut in two around the new block
        have hi0 : 0 < i := by omega
        have hic : i < c := by omega
        have hiR : ((i : Int) : Rat) ≠ 0 := by
          exact_mod_cast Int.ne_of_gt hi0
        have hrestR : (((c - i) : Int) : Rat) ≠ 0 := by
          have h4 : (0 : Int) < c - i := by omega
          exact_mod_cast Int.ne_of_gt h4
        have hz1 : (((i : Int) : Rat) * (s / ((c : Int) : Rat))) / ((i : Int) : Rat)
            = s / ((c : Int) : Rat) := mul_div_cancel_left₀ _ hiR
        have hz2 : (((ct : Int) : Rat) * z) / ((ct : Int) : Rat) = z :=
          mul_div_cancel_left₀ _ (ne_of_gt hctR)
        have hz3 : ((((c - i) : Int) : Rat) * (s / ((c : Int) : Rat))) /
            (((c - i) : Int) : Rat) = s / ((c : Int) : Rat) :=
          mul_div_cancel_left₀ _ hrestR
        simp only [createBranch, createLeaf, Span.secSizes, hz1, hz2, hz3,
          List.take_replicate, List.drop_replicate]
        rw [min_eq_left (by omega)]
        have hn : (c - i).toNat = c.toNat - i.toNat := by omega
        rw [hn, List.append_assoc]
  | branch l r ihl ihr =>
      intro i ct z hw hct hi hile
      simp only [Span.wfB, Bool.and_eq_true] at hw
      simp only [Span.count] at hile
      have hlL : ((l.secSizes).length : Int) = l.count := secSizes_length l hw.1
      have hrL : ((r.secSizes).length : Int) = r.count := secSizes_length r hw.2
      simp only [Span.insert]
      split
      · next hlt =>
          rw [rebalance_secSizes]
          simp only [Span.secSizes]
          rw [ihl i ct z hw.1 hct hi (by omega)]
          have htake : i.toNat - (l.secSizes).length = 0 := by omega
          conv_rhs =>
            rw [List.take_append_eq_append_take, List.drop_append_eq_append_drop,
              htake]
          simp [List.append_assoc]
      · next hge =>
          rw [rebalance_secSizes]
          simp only [Span.secSizes]
          have hlc : l.count ≤ i := by omega
          rw [ihr (i - l.count) ct z hw.2 hct (by omega) (by omega)]
          have hlen : (l.secSizes).length ≤ i.toNat := by omega
          have h1 : i.toNat - (l.secSizes).length = (i - l.count).toNat := by omega
          conv_rhs =>
            rw [List.take_append_eq_append_take, List.drop_append_eq_append_drop,
              List.take_of_length_le hlen, List.drop_eq_nil_of_le hlen, h1]
          simp [List.append_assoc]

/-- Removing the in-range block `[i, i+c)` from a well formed span
yields a well formed span holding exactly the remaining section sizes. -/
lemma remove_spec (t : Span) :
    ∀ (i c : Int) (t' : Span), t.wfB = true → 0 ≤ i → 0 < c → i + c ≤ t.count →
      Span.remove t i c = some t' →
      t'.wfB = true ∧
        t'.secSizes =
          (t.secSizes).take i.toNat ++ (t.secSizes).drop (i + c).toNat := by
  induction t with
  | leaf cc ss =>
      intro i c t' hw hi hc hic ht
      simp only [Span.wfB, decide_eq_true_eq] at hw
      simp only [Span.count] at hic
      simp only [Span.remove, Span.count] at ht
      split at ht
      · exact absurd ht (by simp)
      · next hne =>
          have hclt : c < cc := by omega
          have hrest : (((cc - c) : Int) : Rat) ≠ 0 := by
            have h4 : (0 : Int) < cc - c := by omega
            exact_mod_cast Int.ne_of_gt h4
          have ht' : t' = Span.leaf (cc - c)
              ((((cc - c) : Int) : Rat) * (ss / ((cc : Int) : Rat))) := by
            simpa using ht.symm
          subst ht'
          constructor
          · simp only [Span.wfB, decide_eq_true_eq]
            omega
          · simp only [Span.secSizes, mul_div_cancel_left₀ _ hrest,
              List.take_replicate, List.drop_replicate]
            rw [min_eq_left (by omega), ← List.replicate_add]
            congr 1
            omega
  | branch l r ihl ihr =>
      intro i c t' hw hi hc hic ht
      simp only [Span.wfB, Bool.and_eq_true] at hw
      simp only [Span.count] at hic
      have hlL : ((l.secSizes).length : Int) = l.count := secSizes_length l hw.1
      have hrL : ((r.secSizes).length : Int) = r.count := secSizes_length r hw.2
      have hlpos : 0 < l.count := wf_count_pos l hw.1
      have hrpos : 0 < r.count := wf_count_pos r hw.2
      simp only [Span.remove] at ht
      split at ht
      · exact absurd ht (by simp)
      · next hne =>
          simp only [Span.count] at hne
          by_cases h1 : i < l.count ∧ l.count < i + c
          · rw [if_pos h1] at ht
            rcases hL : Span.remove l i (l.count - i) with _ | l' <;>
              rcases hR : Span.remove r 0 (c - (l.count - i)) with _ | r' <;>
                rw [hL, hR] at ht <;> simp at ht
            · -- left child removed entirely
              have e1 := (remove_none_iff l i (l.count - i)).1 hL
              have hi0 : i = 0 := by omega
              obtain ⟨w1, w2⟩ := ihr 0 (c - (l.count - i)) r' hw.2 le_rfl
                (by omega) (by omega) hR
              subst ht
              rw [hoistRebalance_wfB, hoistRebalance_secSizes]
              refine ⟨w1, ?_⟩
              rw [w2]
              subst hi0
              simp only [Span.secSizes, zero_add, Int.sub_zero, Int.toNat_zero,
                List.take_zero, List.nil_append]
              have hlen : (l.secSizes).length ≤ c.toNat := by omega
              have hd : (c - l.count).toNat = c.toNat - (l.secSizes).length := by
                omega
              rw [List.drop_append_eq_append_drop, List.drop_eq_nil_of_le hlen, hd]
              simp
            · -- right child removed entirely
              have e2 := (remove_none_iff r 0 (c - (l.count - i))).1 hR
              obtain ⟨w1, w2⟩ := ihl i (l.count - i) l' hw.1 hi
                (by omega) (by omega) hL
              subst ht
              rw [hoistRebalance_wfB, hoistRebalance_secSizes]
              refine ⟨w1, ?_⟩
              rw [w2]
              simp only [Span.secSizes]
              have hd1 : (i + (l.count - i)).toNat = (l.secSizes).length := by omega
              have hlen1 : (l.secSizes).length ≤ (i + c).toNat := by omega
              have hlen2 : (r.secSizes).length ≤ (i + c).toNat - (l.secSizes).length := by
                omega
              have htk : i.toNat ≤ (l.secSizes).length := by omega
              conv_rhs =>
                rw [List.take_append_eq_append_take,
                  List.drop_append_eq_append_drop,
                  List.drop_eq_nil_of_le hlen1,
                  List.drop_eq_nil_of_le hlen2]
              rw [hd1]
              simp [Nat.sub_eq_zero_of_le htk]
            · -- both children survive
              obtain ⟨w1l, w2l⟩ := ihl i (l.count - i) l' hw.1 hi
                (by omega) (by omega) hL
              obtain ⟨w1r, w2r⟩ := ihr 0 (c - (l.count - i)) r' hw.2 le_rfl
                (by omega) (by omega) hR
              subst ht
              rw [hoistRebalance_wfB, hoistRebalance_secSizes]
              constructor
              · simp only [Span.wfB, Bool.and_eq_true]
                exact ⟨w1l, w1r⟩
              · simp only [Span.secSizes]
                rw [w2l, w2r]
                have hd1 : (i + (l.count - i)).toNat = (l.secSizes).length := by omega
                have htk : i.toNat ≤ (l.secSizes).length := by omega
                have hlen1 : (l.secSizes).length ≤ (i + c).toNat := by omega
                have hd2 : ((0 : Int) + (c - (l.count - i))).toNat
                    = (i + c).toNat - (l.secSizes).length := by omega
                conv_rhs =>
                  rw [List.take_append_eq_append_take,
                    List.drop_append_eq_append_drop,
                    List.drop_eq_nil_of_le hlen1]
                rw [hd1, hd2]
                simp [Nat.sub_eq_zero_of_le htk]
          · rw [if_neg h1] at ht
            by_cases h2 : i < l.count
            · -- the range lies inside the left child
              rw [if_pos h2] at ht
              have hcl : i + c ≤ l.count := by omega
              rcases hL : Span.remove l i c with _ | l' <;>
                rw [hL] at ht <;> simp at ht
              · -- left child removed entirely
                have e1 := (remove_none_iff l i c).1 hL
                have hi0 : i = 0 := by omega
                subst ht
                rw [hoistRebalance_wfB, hoistRebalance_secSizes]
                refine ⟨hw.2, ?_⟩
                subst hi0
                simp only [Span.secSizes]
                have hd : ((0 : Int) + c).toNat = (l.secSizes).length := by omega
                conv_rhs =>
                  rw [List.drop_append_eq_append_drop]
                rw [hd]
                simp
              · obtain ⟨w1, w2⟩ := ihl i c l' hw.1 hi hc hcl hL
                subst ht
                rw [hoistRebalance_wfB, hoistRebalance_secSizes]
                constructor
                · simp only [Span.wfB, Bool.and_eq_true]
                  exact ⟨w1, hw.2⟩
                · simp only [Span.secSizes]
                  rw [w2]
                  have htk : i.toNat ≤ (l.secSizes).length := by omega
                  have hdr : (i + c).toNat ≤ (l.secSizes).length := by omega
                  conv_rhs =>
                    rw [List.take_append_eq_append_take,
                      List.drop_append_eq_append_drop]
                  rw [Nat.sub_eq_zero_of_le htk, Nat.sub_eq_zero_of_le hdr]
                  simp [List.append_assoc]
            · -- the range lies inside the right child
              rw [if_neg h2] at ht
              have hgel : l.count ≤ i := by omega
              rcases hR : Span.remove r (i - l.count) c with _ | r' <;>
                rw [hR] at ht <;> simp at ht
              · -- right child removed entirely
                have e2 := (remove_none_iff r (i - l.count) c).1 hR
                have hieq : i = l.count := by omega
                subst ht
                rw [hoistRebalance_wfB, hoistRebalance_secSizes]
                refine ⟨hw.1, ?_⟩
                simp only [Span.secSizes]
                have htk : (l.secSizes).length ≤ i.toNat := by omega
                have htk2 : i.toNat ≤ (l.secSizes).length := by omega
                have hdr1 : (l.secSizes).length ≤ (i + c).toNat := by omega
                have hdr2 : (r.secSizes).length ≤ (i + c).toNat - (l.secSizes).length := by
                  omega
                conv_rhs =>
                  rw [List.take_append_eq_append_take,
                    List.drop_append_eq_append_drop,
                    List.take_of_length_le htk,
                    List.drop_eq_nil_of_le hdr1,
                    List.drop_eq_nil_of_le hdr2]
                simp [Nat.sub_eq_zero_of_le htk2]
              · obtain ⟨w1, w2⟩ := ihr (i - l.count) c r' hw.2 (by omega) hc
                  (by omega) hR
                subst ht
                rw [hoistRebalance_wfB, hoistRebalance_secSizes]
                constructor
                · simp only [Span.wfB, Bool.and_eq_true]
                  exact ⟨hw.1, w1⟩
                · simp only [Span.secSizes]
                  rw [w2]
                  have htk : (l.secSizes).length ≤ i.toNat := by omega
                  have hdr1 : (l.secSizes).length ≤ (i + c).toNat := by omega
                  have e1 : i.toNat - (l.secSizes).length = (i - l.count).toNat := by
                    omega
                  have e2 : (i + c).toNat - (l.secSizes).length
                      = (i - l.count + c).toNat := by omega
                  conv_rhs =>
                    rw [List.take_append_eq_append_take,
                      List.drop_append_eq_append_drop,
                      List.take_of_length_le htk,
                      List.drop_eq_nil_of_le hdr1, e1, e2]
                  simp [List.append_assoc]

/-! ### Facade level invariants -/

lemma insert_facade_wfB (l : SectionList) (idx cnt sz : Rat)
    (hw : l.wfB = true) : ((l.insert idx cnt sz).1).wfB = true := by
  obtain ⟨root⟩ := l
  simp only [SectionList.insert]
  split
  · exact hw
  · cases root with
    | none => simp [SectionList.wfB, createLeaf, Span.wfB]; omega
    | some t =>
        next hct =>
        simp only [SectionList.wfB] at hw ⊢
        exact insert_wfB t _ _ _ hw (by omega) (by positivity)

lemma remove_facade_wfB (l : SectionList) (idx cnt : Rat)
    (hw : l.wfB = true) : ((l.remove idx cnt).1).wfB = true := by
  obtain ⟨root⟩ := l
  cases root with
  | none => exact hw
  | some t =>
      simp only [SectionList.remove]
      split
      · exact hw
      · next hct =>
          split
          · exact hw
          · next hn =>
              simp only [SectionList.wfB] at hw ⊢
              rcases hrm : Span.remove t (max 0 (Int.floor idx))
                  (min (Int.floor idx + Int.floor cnt - 1) (t.count - 1) -
                    max 0 (Int.floor idx) + 1) with _ | t'
              · simp [hrm, SectionList.wfB]
              · simp only [hrm, SectionList.wfB]
                exact (remove_spec t _ _ t' hw (by omega) (by omega)
                  (by omega) hrm).1

lemma resize_facade_wfB (l : SectionList) (idx cnt sz : Rat)
    (hw : l.wfB = true) : ((l.resize idx cnt sz).1).wfB = true := by
  obtain ⟨root⟩ := l
  cases root with
  | none => exact hw
  | some t =>
      simp only [SectionList.resize]
      split
      · exact hw
      · next hct =>
          split
          · exact hw
          · next hn =>
              simp only [SectionList.wfB] at hw
              rcases hrm : Span.remove t (max 0 (Int.floor idx))
                  (min (Int.floor idx + Int.floor cnt - 1) (t.count - 1) -
                    max 0 (Int.floor idx) + 1) with _ | t'
              · simp only [hrm, SectionList.wfB, createLeaf, Span.wfB,
                  decide_eq_true_eq]
                omega
              · simp only [hrm, SectionList.wfB]
                have hwf' := (remove_spec t _ _ t' hw (by omega) (by omega)
                  (by omega) hrm).1
                exact insert_wfB t' _ _ _ hwf' (by omega) (by omega)

/-- Every reachable list state is well formed: all leaf counts are
positive. -/
lemma reachable_wfB (l : SectionList) (h : Reachable l) : l.wfB = true := by
  induction h with
  | empty => rfl
  | insert l idx cnt sz _ ih => exact insert_facade_wfB l idx cnt sz ih
  | remove l idx cnt _ ih => exact remove_facade_wfB l idx cnt ih
  | resize l idx cnt sz _ ih => exact resize_facade_wfB l idx cnt sz ih

/-! ### Query lemmas: round trip and partition -/

lemma pos_count_pos (t : Span) (h : t.posB = true) : 0 < t.count := by
  induction t with
  | leaf c s =>
      simp only [Span.posB, Bool.and_eq_true, decide_eq_true_eq] at h
      simpa [Span.count] using h.1
  | branch l r ihl ihr =>
      simp only [Span.posB, Bool.and_eq_true] at h
      have := ihl h.1
      have := ihr h.2
      simp only [Span.count]
      omega

lemma pos_size_pos (t : Span) (h : t.posB = true) : 0 < t.size := by
  induction t with
  | leaf c s =>
      simp only [Span.posB, Bool.and_eq_true, decide_eq_true_eq] at h
      simpa [Span.size] using h.2
  | branch l r ihl ihr =>
      simp only [Span.posB, Bool.and_eq_true] at h
      have := ihl h.1
      have := ihr h.2
      simp only [Span.size]
      positivity

lemma offsetOf_nonneg (t : Span) :
    t.posB = true → ∀ i : Int, 0 ≤ i → 0 ≤ Span.offsetOf t i := by
  induction t with
  | leaf c s =>
      intro h i hi
      simp only [Span.posB, Bool.and_eq_true, decide_eq_true_eq] at h
      simp only [Span.offsetOf]
      have h1 : (0 : Rat) ≤ (i : Rat) := by exact_mod_cast hi
      have h2 : (0 : Rat) ≤ s := le_of_lt h.2
      have h3 : (0 : Rat) ≤ ((c : Int) : Rat) := by
        have := h.1
        positivity
      positivity
  | branch l r ihl ihr =>
      intro h i hi
      simp only [Span.posB, Bool.and_eq_true] at h
      simp only [Span.offsetOf]
      split
      · exact ihl h.1 i hi
      · next hge =>
          have h1 := ihr h.2 (i - l.count) (by omega)
          have h2 := le_of_lt (pos_size_pos l h.1)
          positivity

lemma offsetOf_lt_size (t : Span) :
    t.posB = true → ∀ i : Int, 0 ≤ i → i < t.count →
      Span.offsetOf t i < t.size := by
  induction t with
  | leaf c s =>
      intro h i hi hic
      simp only [Span.posB, Bool.and_eq_true, decide_eq_true_eq] at h
      simp only [Span.offsetOf, Span.count, Span.size] at hic ⊢
      have hcR : (0 : Rat) < ((c : Int) : Rat) := by exact_mod_cast h.1
      have hiR : ((i : Int) : Rat) < ((c : Int) : Rat) := by exact_mod_cast hic
      rw [div_lt_iff₀ hcR]
      have := h.2
      nlinarith
  | branch l r ihl ihr =>
      intro h i hi hic
      simp only [Span.posB, Bool.and_eq_true] at h
      simp only [Span.offsetOf, Span.count, Span.size] at hic ⊢
      split
      · next hlt =>
          have h1 := ihl h.1 i hi hlt
          have h2 := pos_size_pos r h.2
          linarith
      · next hge =>
          have h1 := ihr h.2 (i - l.count) (by omega) (by omega)
          linarith

/-- The round trip: for a span all of whose sections have positive
size, `indexOf` applied to the offset of section `i` recovers `i`. -/
lemma indexOf_offsetOf (t : Span) :
    t.posB = true → ∀ i : Int, 0 ≤ i → i < t.count →
      Span.indexOf t (Span.offsetOf t i) = i := by
  induction t with
  | leaf c s =>
      intro h i hi hic
      simp only [Span.posB, Bool.and_eq_true, decide_eq_true_eq] at h
      simp only [Span.offsetOf, Span.indexOf]
      have hcR : ((c : Int) : Rat) ≠ 0 := by
        exact_mod_cast Int.ne_of_gt h.1
      have hsR : s ≠ 0 := ne_of_gt h.2
      have he : ((i : Int) : Rat) * s / ((c : Int) : Rat) * ((c : Int) : Rat) / s
          = ((i : Int) : Rat) := by
        field_simp
      rw [he, Int.floor_intCast]
  | branch l r ihl ihr =>
      intro h i hi hic
      simp only [Span.posB, Bool.and_eq_true] at h
      simp only [Span.count] at hic
      simp only [Span.offsetOf]
      split
      · next hlt =>
          have hofs := offsetOf_lt_size l h.1 i hi hlt
          simp only [Span.indexOf]
          rw [if_pos hofs]
          exact ihl h.1 i hi hlt
      · next hge =>
          have hnn := offsetOf_nonneg r h.2 (i - l.count) (by omega)
          simp only [Span.indexOf]
          rw [if_neg (by linarith)]
          have he : l.size + Span.offsetOf r (i - l.count) - l.size
              = Span.offsetOf r (i - l.count) := by ring
          rw [he, ihr h.2 (i - l.count) (by omega) (by omega)]
          omega

lemma offsetOf_zero (t : Span) (h : t.wfB = true) : Span.offsetOf t 0 = 0 := by
  induction t with
  | leaf c s => simp [Span.offsetOf]
  | branch l r ihl ihr =>
      simp only [Span.wfB, Bool.and_eq_true] at h
      have := wf_count_pos l h.1
      simp only [Span.offsetOf]
      rw [if_pos (by omega)]
      exact ihl h.1

/-- Partition, last section: the offset of the final section plus its
size is the total size. -/
lemma partition_last (t : Span) (h : t.wfB = true) :
    Span.offsetOf t (t.count - 1) + Span.sizeOf t (t.count - 1) = t.size := by
  induction t with
  | leaf c s =>
      simp only [Span.wfB, decide_eq_true_eq] at h
      have hcR : ((c : Int) : Rat) ≠ 0 := by exact_mod_cast Int.ne_of_gt h
      simp only [Span.offsetOf, Span.sizeOf, Span.count, Span.size]
      push_cast
      field_simp
      ring
  | branch l r ihl ihr =>
      simp only [Span.wfB, Bool.and_eq_true] at h
      have hl := wf_count_pos l h.1
      have hr := wf_count_pos r h.2
      simp only [Span.offsetOf, Span.sizeOf, Span.count, Span.size]
      rw [if_neg (by omega), if_neg (by omega)]
      have he : l.count + r.count - 1 - l.count = r.count - 1 := by ring
      rw [he]
      have := ihr h.2
      linarith

/-- Partition, adjacent sections: the offset of section `i` plus its
size is the offset of section `i + 1`. -/
lemma partition_step (t : Span) :
    t.wfB = true → ∀ i : Int, 0 ≤ i → i + 1 < t.count →
      Span.offsetOf t i + Span.sizeOf t i = Span.offsetOf t (i + 1) := by
  induction t with
  | leaf c s =>
      intro h i hi hic
      simp only [Span.wfB, decide_eq_true_eq] at h
      have hcR : ((c : Int) : Rat) ≠ 0 := by exact_mod_cast Int.ne_of_gt h
      simp only [Span.offsetOf, Span.sizeOf]
      push_cast
      field_simp
      ring
  | branch l r ihl ihr =>
      intro h i hi hic
      simp only [Span.wfB, Bool.and_eq_true] at h
      have hl := wf_count_pos l h.1
      have hr := wf_count_pos r h.2
      simp only [Span.count] at hic
      simp only [Span.offsetOf, Span.sizeOf]
      by_cases h1 : i + 1 < l.count
      · rw [if_pos (by omega), if_pos (by omega), if_pos (by omega)]
        exact ihl h.1 i hi (by omega)
      · by_cases h2 : i < l.count
        · -- the boundary: section i is the last of the left child
          rw [if_pos (by omega), if_pos (by omega), if_neg (by omega)]
          have hieq : i = l.count - 1 := by omega
          have hz : i + 1 - l.count = 0 := by omega
          rw [hz, offsetOf_zero r h.2, hieq]
          have := partition_last l h.1
          linarith
        · rw [if_neg (by omega), if_neg (by omega), if_neg (by omega)]
          have he : i + 1 - l.count = i - l.count + 1 := by ring
          rw [he]
          have := ihr h.2 (i - l.count) (by omega) (by omega)
          linarith

lemma reachable_buildN (n : Nat) : Reachable (buildN n) := by
  induction n with
  | zero => exact Reachable.empty
  | succ n ih => exact Reachable.insert (buildN n) _ _ _ ih

/-! ### The claims -/

unseal Rat.mul Rat.add Rat.sub Rat.inv in
/-- C1, counterexample: the round trip `indexOf (offsetOf i) = i` fails
on a reachable state holding a zero sized section.  After inserting one
section of size 0 into the empty list, index 0 is valid, `offsetOf 0`
is 0, but `indexOf 0` is `-1` because the total size is 0 and the guard
`offset >= size` fires. -/
theorem c1_roundtrip_counterexample :
    Reachable ((SectionList.empty.insert 0 1 0).1) ∧
    (0 : Int) ≤ 0 ∧ 0 < ((SectionList.empty.insert 0 1 0).1).count ∧
    ((SectionList.empty.insert 0 1 0).1).indexOf
        (((SectionList.empty.insert 0 1 0).1).offsetOf ((0 : Int) : Rat)) ≠ 0 :=
  ⟨Reachable.insert _ 0 1 0 Reachable.empty, by decide, by decide, by decide⟩

/-- C1, amended: for every list state in which every leaf span has a
positive count and a positive size (so every section has positive size;
this holds in particular for every reachable state produced with
positive sizes), `indexOf (offsetOf i) = i` for every integer index
`i` in `[0, count)`. -/
theorem c1_roundtrip (l : SectionList) (hp : l.posB = true) (i : Int)
    (hi : 0 ≤ i) (hic : i < l.count) :
    l.indexOf (l.offsetOf ((i : Int) : Rat)) = i := by
  obtain ⟨root⟩ := l
  cases root with
  | none =>
      exfalso
      simp only [SectionList.count] at hic
      omega
  | some t =>
      simp only [SectionList.posB] at hp
      simp only [SectionList.count] at hic
      have hov : SectionList.offsetOf ⟨some t⟩ ((i : Int) : Rat)
          = Span.offsetOf t i := by
        simp only [SectionList.offsetOf]
        rw [Int.floor_intCast, if_neg (by omega)]
      rw [hov]
      simp only [SectionList.indexOf]
      have h1 := offsetOf_nonneg t hp i hi
      have h2 := offsetOf_lt_size t hp i hi hic
      rw [if_neg (by push_neg; exact ⟨h1, h2⟩)]
      exact indexOf_offsetOf t hp i hi hic

unseal Rat.mul Rat.add Rat.sub Rat.inv in
theorem c1_roundtrip_witness :
    ((SectionList.empty.insert 0 5 10).1).posB = true ∧
    ((SectionList.empty.insert 0 5 10).1).indexOf
        (((SectionList.empty.insert 0 5 10).1).offsetOf ((2 : Int) : Rat)) = 2 :=
  ⟨by decide, c1_roundtrip _ (by decide) 2 (by decide) (by decide)⟩

unseal Rat.mul Rat.add Rat.sub Rat.inv in
/-- C2: the balance invariant is broken by `remove`.  Build a balanced
17 section list by 17 public `insert` calls, then `remove 0 7`: the
call removes 7 sections, but the rotation performed by the root level
rebalancing loop leaves a descendant branch with balance factor 2, so
the recursive AVL check fails afterwards.  The loop of `remove` only
watches the balance factor of the span it rebalances, never the
branches its rotations create below it. -/
theorem c2_balance_bug :
    Reachable (buildN 17) ∧ (buildN 17).balancedB = true ∧
    ((buildN 17).remove 0 7).2 = 7 ∧
    ((buildN 17).remove 0 7).1.balancedB = false :=
  ⟨reachable_buildN 17, by decide, by decide, by decide⟩

/-- C3: partition.  On every reachable list state,
`offsetOf i + sizeOf i = offsetOf (i+1)` for `0 ≤ i < count - 1`, and
for a non-empty list `offsetOf (count-1) + sizeOf (count-1) = size`. -/
theorem c3_partition (l : SectionList) (h : Reachable l) :
    (∀ i : Int, 0 ≤ i → i < l.count - 1 →
        l.offsetOf ((i : Int) : Rat) + l.sizeOf ((i : Int) : Rat)
          = l.offsetOf (((i + 1 : Int)) : Rat)) ∧
    (0 < l.count →
        l.offsetOf (((l.count - 1 : Int)) : Rat)
            + l.sizeOf (((l.count - 1 : Int)) : Rat) = l.size) := by
  have hw := reachable_wfB l h
  obtain ⟨root⟩ := l
  cases root with
  | none =>
      constructor
      · intro i hi hic
        exfalso
        simp only [SectionList.count] at hic
        omega
      · intro h0
        exfalso
        simp only [SectionList.count] at h0
        omega
  | some t =>
      simp only [SectionList.wfB] at hw
      simp only [SectionList.count, SectionList.size]
      constructor
      · intro i hi hic
        simp only [SectionList.offsetOf, SectionList.sizeOf]
        rw [Int.floor_intCast, Int.floor_intCast]
        rw [if_neg (by omega), if_neg (by omega), if_neg (by omega)]
        exact partition_step t hw i hi (by omega)
      · intro h0
        simp only [SectionList.offsetOf, SectionList.sizeOf]
        rw [Int.floor_intCast]
        rw [if_neg (by omega), if_neg (by omega)]
        exact partition_last t hw

unseal Rat.mul Rat.add Rat.sub Rat.inv in
theorem c3_partition_witness :
    (SectionList.empty.insert 0 5 10).1.offsetOf ((2 : Int) : Rat)
        + (SectionList.empty.insert 0 5 10).1.sizeOf ((2 : Int) : Rat)
      = (SectionList.empty.insert 0 5 10).1.offsetOf (((2 + 1 : Int)) : Rat) :=
  (c3_partition _ (Reachable.insert _ 0 5 10 Reachable.empty)).1 2
    (by decide) (by decide)

/-- C8: the rebalancing do-while loop of `remove` always terminates:
for every span, within `2 * level + 1` iterations the loop reaches a
span whose balance factor lies in `[-1, 1]`, and running it with any
larger iteration budget returns the same span. -/
theorem c8_remove_loop_terminates (s : Span) :
    (rebalanceLoop (2 * s.level + 1) s).bal.natAbs ≤ 1 ∧
    ∀ m : Nat, rebalanceLoop (2 * s.level + 1 + m) s
      = rebalanceLoop (2 * s.level + 1) s := by
  have hmu : s.mu ≤ 2 * s.level + 1 := by
    have := Span.flag_le_one s
    simp only [Span.mu]
    omega
  exact ⟨rebalanceLoop_exit _ s hmu, fun m => rebalanceLoop_stable _ s m hmu⟩

/-- C9: on a branch whose balance factor lies in `[-2, 2]` and whose
children are recursively balanced, one `rebalance` restores a balance
factor in `[-1, 1]` at the root and preserves the section count, the
total size and the in order sequence of per section sizes. -/
theorem c9_rebalance (l r : Span) (hl : l.balancedB = true)
    (hr : r.balancedB = true) (hb : (Span.branch l r).bal.natAbs ≤ 2) :
    (rebalance (.branch l r)).bal.natAbs ≤ 1 ∧
    (rebalance (.branch l r)).secSizes = (Span.branch l r).secSizes ∧
    (rebalance (.branch l r)).count = (Span.branch l r).count ∧
    (rebalance (.branch l r)).size = (Span.branch l r).size := by
  refine ⟨?_, rebalance_secSizes _, rebalance_count _, rebalance_size _⟩
  simp only [Span.bal] at hb
  simp only [rebalance]
  by_cases hB : 1 < (l.level : Int) - (r.level : Int)
  · rw [if_pos hB]
    cases l with
    | leaf lc ls => simp only [Span.level] at hB; omega
    | branch a b =>
        dsimp only
        simp only [Span.balancedB, Bool.and_eq_true, decide_eq_true_eq] at hl
        simp only [Span.level] at hB hb
        by_cases hab : b.level < a.level
        · rw [if_pos hab]
          simp only [Span.bal, Span.level]
          omega
        · rw [if_neg hab]
          cases b with
          | leaf sc ss => simp only [Span.level] at hB hab; omega
          | branch c d =>
              dsimp only
              simp only [Span.balancedB, Bool.and_eq_true,
                decide_eq_true_eq] at hl
              simp only [Span.bal, Span.level] at hl hB hb hab ⊢
              omega
  · rw [if_neg hB]
    by_cases hB2 : (l.level : Int) - (r.level : Int) < -1
    · rw [if_pos hB2]
      cases r with
      | leaf rc rs => simp only [Span.level] at hB2; omega
      | branch c d =>
          dsimp only
          simp only [Span.balancedB, Bool.and_eq_true, decide_eq_true_eq] at hr
          simp only [Span.level] at hB2 hb
          by_cases hcd : c.level < d.level
          · rw [if_pos hcd]
            simp only [Span.bal, Span.level]
            omega
          · rw [if_neg hcd]
            cases c with
            | leaf sc ss => simp only [Span.level] at hB2 hcd; omega
            | branch e f =>
                dsimp only
                simp only [Span.balancedB, Bool.and_eq_true,
                  decide_eq_true_eq] at hr
                simp only [Span.bal, Span.level] at hr hB2 hb hcd ⊢
                omega
    · rw [if_neg hB2]
      simp only [Span.bal]
      omega

unseal Rat.mul Rat.add Rat.sub Rat.inv in
theorem c9_rebalance_witness :
    (Span.branch (.branch (.leaf 1 1) (.leaf 1 2)) (.leaf 1 3)).balancedB = true ∧
    (Span.leaf 1 4).balancedB = true ∧
    (Span.branch (Span.branch (.branch (.leaf 1 1) (.leaf 1 2)) (.leaf 1 3))
        (Span.leaf 1 4)).bal.natAbs ≤ 2 ∧
    ((rebalance (.branch (Span.branch (.branch (.leaf 1 1) (.leaf 1 2)) (.leaf 1 3))
          (Span.leaf 1 4))).bal.natAbs ≤ 1 ∧
      (rebalance (.branch (Span.branch (.branch (.leaf 1 1) (.leaf 1 2)) (.leaf 1 3))
            (Span.leaf 1 4))).secSizes
        = (Span.branch (Span.branch (.branch (.leaf 1 1) (.leaf 1 2)) (.leaf 1 3))
            (Span.leaf 1 4)).secSizes ∧
      (rebalance (.branch (Span.branch (.branch (.leaf 1 1) (.leaf 1 2)) (.leaf 1 3))
            (Span.leaf 1 4))).count
        = (Span.branch (Span.branch (.branch (.leaf 1 1) (.leaf 1 2)) (.leaf 1 3))
            (Span.leaf 1 4)).count ∧
      (rebalance (.branch (Span.branch (.branch (.leaf 1 1) (.leaf 1 2)) (.leaf 1 3))
            (Span.leaf 1 4))).size
        = (Span.branch (Span.branch (.branch (.leaf 1 1) (.leaf 1 2)) (.leaf 1 3))
            (Span.leaf 1 4)).size) :=
  ⟨by decide, by decide, by decide,
    c9_rebalance _ _ (by decide) (by decide) (by decide)⟩

/-- C6: with a positive floored count, `insert` inserts `floor cnt` new
sections of size `max 0 sz` starting at `floor idx` clamped into
`[0, count]`, returns the clamped index, and grows the count by
`floor cnt` and the size by `floor cnt * max 0 sz`. -/
theorem c6_insert (l : SectionList) (idx cnt sz : Rat) (hw : l.wfB = true)
    (hct : 0 < Int.floor cnt) :
    (l.insert idx cnt sz).2 = max 0 (min (Int.floor idx) l.count) ∧
    (l.insert idx cnt sz).1.count = l.count + Int.floor cnt ∧
    (l.insert idx cnt sz).1.size
      = l.size + ((Int.floor cnt : Int) : Rat) * max 0 sz ∧
    (l.insert idx cnt sz).1.secList =
      (l.secList).take (max 0 (min (Int.floor idx) l.count)).toNat ++
        List.replicate (Int.floor cnt).toNat (max 0 sz) ++
        (l.secList).drop (max 0 (min (Int.floor idx) l.count)).toNat := by
  obtain ⟨root⟩ := l
  cases root with
  | none =>
      have heq : SectionList.insert ⟨none⟩ idx cnt sz =
          (⟨some (createLeaf (Int.floor cnt)
            (((Int.floor cnt : Int) : Rat) * max 0 sz))⟩, 0) := by
        simp only [SectionList.insert]
        rw [if_neg (by omega)]
      rw [heq]
      have hctR : ((Int.floor cnt : Int) : Rat) ≠ 0 := by
        exact_mod_cast Int.ne_of_gt hct
      have h0 : max 0 (min (Int.floor idx) (SectionList.count ⟨none⟩)) = 0 := by
        simp only [SectionList.count]
        omega
      rw [h0]
      refine ⟨rfl, by simp [SectionList.count, createLeaf, Span.count], ?_, ?_⟩
      · simp only [SectionList.size, createLeaf, Span.size]
        ring
      · simp only [SectionList.secList, createLeaf, Span.secSizes]
        simp only [List.take_nil, List.drop_nil, List.nil_append, List.append_nil]
        congr 1
        exact mul_div_cancel_left₀ _ hctR
  | some t =>
      have heq : SectionList.insert ⟨some t⟩ idx cnt sz =
          (⟨some (Span.insert t (max 0 (min (Int.floor idx) t.count))
            (Int.floor cnt) (max 0 sz))⟩,
           max 0 (min (Int.floor idx) t.count)) := by
        simp only [SectionList.insert]
        rw [if_neg (by omega)]
      rw [heq]
      simp only [SectionList.wfB] at hw
      have hcp := wf_count_pos t hw
      have hi0 : (0 : Int) ≤ max 0 (min (Int.floor idx) t.count) := by omega
      have hile : max 0 (min (Int.floor idx) t.count) ≤ t.count := by omega
      refine ⟨by simp [SectionList.count], ?_, ?_, ?_⟩
      · simp only [SectionList.count]
        rw [insert_count]
      · simp only [SectionList.size]
        rw [insert_size t _ _ _ hw]
      · simp only [SectionList.secList, SectionList.count]
        rw [insert_secSizes t _ _ _ hw hct hi0 hile]

unseal Rat.mul Rat.add Rat.sub Rat.inv in
theorem c6_insert_witness :
    ((SectionList.empty.insert 0 5 10).1).wfB = true ∧
    0 < Int.floor (1 : Rat) ∧
    (((SectionList.empty.insert 0 5 10).1).insert 2 1 20).2
        = max 0 (min (Int.floor (2 : Rat)) ((SectionList.empty.insert 0 5 10).1).count) ∧
    (((SectionList.empty.insert 0 5 10).1).insert 2 1 20).1.count
        = ((SectionList.empty.insert 0 5 10).1).count + Int.floor (1 : Rat) ∧
    (((SectionList.empty.insert 0 5 10).1).insert 2 1 20).1.size
        = ((SectionList.empty.insert 0 5 10).1).size
            + ((Int.floor (1 : Rat) : Int) : Rat) * max 0 20 ∧
    (((SectionList.empty.insert 0 5 10).1).insert 2 1 20).1.secList =
      (((SectionList.empty.insert 0 5 10).1).secList).take
          (max 0 (min (Int.floor (2 : Rat))
            ((SectionList.empty.insert 0 5 10).1).count)).toNat ++
        List.replicate (Int.floor (1 : Rat)).toNat (max 0 20) ++
        (((SectionList.empty.insert 0 5 10).1).secList).drop
          (max 0 (min (Int.floor (2 : Rat))
            ((SectionList.empty.insert 0 5 10).1).count)).toNat := by
  have h := c6_insert (SectionList.empty.insert 0 5 10).1 2 1 20
    (by decide) (by decide)
  exact ⟨by decide, by decide, h.1, h.2.1, h.2.2.1, h.2.2.2⟩

/-- C7: sentinel behaviour of the boundary inputs.  `indexOf` rejects
`-1` and the total size, `offsetOf` rejects `-1` and the count,
`insert` with count 0 returns `-1` without mutating, `remove` with
count 0 returns 0 without mutating, and any `remove` or `resize` whose
count is non-positive or whose floored index range lies entirely
outside `[0, count)` returns 0 and leaves the state unchanged. -/
theorem c7_bounds (l : SectionList) (idx cnt sz : Rat) :
    l.indexOf (-1) = -1 ∧
    l.indexOf l.size = -1 ∧
    l.offsetOf (-1) = -1 ∧
    l.offsetOf ((l.count : Int) : Rat) = -1 ∧
    l.insert idx 0 sz = (l, -1) ∧
    l.remove idx 0 = (l, 0) ∧
    (cnt ≤ 0 ∨ Int.floor idx + Int.floor cnt ≤ 0 ∨ l.count ≤ Int.floor idx →
      l.remove idx cnt = (l, 0) ∧ l.resize idx cnt sz = (l, 0)) := by
  obtain ⟨root⟩ := l
  refine ⟨?_, ?_, ?_, ?_, ?_, ?_, ?_⟩
  · cases root with
    | none => rfl
    | some t =>
        simp only [SectionList.indexOf]
        rw [if_pos (Or.inl (by norm_num))]
  · cases root with
    | none => rfl
    | some t =>
        simp only [SectionList.indexOf, SectionList.size]
        rw [if_pos (Or.inr (le_refl _))]
  · cases root with
    | none => rfl
    | some t =>
        simp only [SectionList.offsetOf]
        have hf : Int.floor (-1 : Rat) < 0 := by norm_num
        rw [if_pos (Or.inl hf)]
  · cases root with
    | none => rfl
    | some t =>
        simp only [SectionList.offsetOf, SectionList.count]
        rw [Int.floor_intCast, if_pos (Or.inr (le_refl _))]
  · simp only [SectionList.insert]
    rw [if_pos (by norm_num)]
  · cases root with
    | none => rfl
    | some t =>
        simp only [SectionList.remove]
        rw [if_pos (by norm_num)]
  · intro hcond
    cases root with
    | none => exact ⟨rfl, rfl⟩
    | some t =>
        simp only [SectionList.count] at hcond
        have hfl : Int.floor cnt ≤ 0 ∨
            Int.floor idx + Int.floor cnt ≤ 0 ∨ t.count ≤ Int.floor idx := by
          rcases hcond with h | h | h
          · refine Or.inl ?_
            have h2 : Int.floor cnt ≤ Int.floor (0 : Rat) := Int.floor_le_floor h
            simpa using h2
          · exact Or.inr (Or.inl h)
          · exact Or.inr (Or.inr h)
        constructor
        · simp only [SectionList.remove]
          rcases em (Int.floor cnt ≤ 0) with hc | hc
          · rw [if_pos hc]
          · rw [if_neg hc, if_pos (by omega)]
        · simp only [SectionList.resize]
          rcases em (Int.floor cnt ≤ 0) with hc | hc
          · rw [if_pos hc]
          · rw [if_neg hc, if_pos (by omega)]

unseal Rat.mul Rat.add Rat.sub Rat.inv in
theorem c7_bounds_witness :
    ((SectionList.empty.insert 0 3 2).1).remove 7 2
        = ((SectionList.empty.insert 0 3 2).1, 0) ∧
    ((SectionList.empty.insert 0 3 2).1).resize 7 2 1
        = ((SectionList.empty.insert 0 3 2).1, 0) ∧
    ((SectionList.empty.insert 0 3 2).1).indexOf (-1) = -1 ∧
    ((SectionList.empty.insert 0 3 2).1).insert 5 0 1
        = ((SectionList.empty.insert 0 3 2).1, -1) := by
  have h := c7_bounds (SectionList.empty.insert 0 3 2).1 7 2 1
  have hrange := h.2.2.2.2.2.2 (Or.inr (Or.inr (by decide)))
  exact ⟨hrange.1, hrange.2, h.1, (c7_bounds _ 5 2 1).2.2.2.2.1⟩

/-- C10: when the floored index is negative, `remove` charges the
requested count against the nonexistent negative positions: it removes
exactly the first `max 0 (min (floor idx + floor cnt) count)` sections
and returns that number. -/
theorem c10_negative_remove (l : SectionList) (idx cnt : Rat)
    (hw : l.wfB = true) (hneg : Int.floor idx < 0) :
    (l.remove idx cnt).2
        = max 0 (min (Int.floor idx + Int.floor cnt) l.count) ∧
    (l.remove idx cnt).1.secList =
      (l.secList).drop
        (max 0 (min (Int.floor idx + Int.floor cnt) l.count)).toNat ∧
    (l.remove idx cnt).1.count
        = l.count - max 0 (min (Int.floor idx + Int.floor cnt) l.count) := by
  obtain ⟨root⟩ := l
  cases root with
  | none =>
      have h0 : max 0 (min (Int.floor idx + Int.floor cnt)
          (SectionList.count ⟨none⟩)) = 0 := by
        simp only [SectionList.count]
        omega
      rw [h0]
      exact ⟨rfl, by simp [SectionList.remove, SectionList.secList], by
        simp [SectionList.remove, SectionList.count]⟩
  | some t =>
      simp only [SectionList.wfB] at hw
      simp only [SectionList.count, SectionList.secList]
      rcases em (Int.floor cnt ≤ 0) with hc | hc
      · have h0 : max 0 (min (Int.floor idx + Int.floor cnt) t.count) = 0 := by
          omega
        rw [h0]
        have heq : SectionList.remove ⟨some t⟩ idx cnt = (⟨some t⟩, 0) := by
          simp only [SectionList.remove]
          rw [if_pos hc]
        rw [heq]
        exact ⟨rfl, by simp [SectionList.secList], by
          simp [SectionList.count]⟩
      · have hi0 : max 0 (Int.floor idx) = 0 := by omega
        rcases em (min (Int.floor idx + Int.floor cnt - 1) (t.count - 1) -
            max 0 (Int.floor idx) + 1 ≤ 0) with hn | hn
        · have h0 : max 0 (min (Int.floor idx + Int.floor cnt) t.count) = 0 := by
            omega
          rw [h0]
          have heq : SectionList.remove ⟨some t⟩ idx cnt = (⟨some t⟩, 0) := by
            simp only [SectionList.remove]
            rw [if_neg hc, if_pos hn]
          rw [heq]
          exact ⟨rfl, by simp [SectionList.secList], by
            simp [SectionList.count]⟩
        · have hlen : ((t.secSizes).length : Int) = t.count := secSizes_length t hw
          have hneq : min (Int.floor idx + Int.floor cnt - 1) (t.count - 1) -
              max 0 (Int.floor idx) + 1
              = max 0 (min (Int.floor idx + Int.floor cnt) t.count) := by omega
          have heq : SectionList.remove ⟨some t⟩ idx cnt =
              (⟨Span.remove t (max 0 (Int.floor idx))
                (min (Int.floor idx + Int.floor cnt - 1) (t.count - 1) -
                  max 0 (Int.floor idx) + 1)⟩,
               min (Int.floor idx + Int.floor cnt - 1) (t.count - 1) -
                  max 0 (Int.floor idx) + 1) := by
            simp only [SectionList.remove]
            rw [if_neg hc, if_neg hn]
          rw [heq, hneq, hi0]
          rcases hrm : Span.remove t 0
              (max 0 (min (Int.floor idx + Int.floor cnt) t.count)) with _ | t'
          · have hfull := (remove_none_iff t 0 _).1 hrm
            refine ⟨rfl, ?_, ?_⟩
            · simp only [SectionList.secList]
              rw [List.drop_eq_nil_of_le (by omega)]
            · simp only [SectionList.count]
              omega
          · obtain ⟨w1, w2⟩ := remove_spec t 0 _ t' hw le_rfl (by omega)
              (by omega) hrm
            refine ⟨rfl, ?_, ?_⟩
            · simp only [SectionList.secList]
              rw [w2]
              simp
            · simp only [SectionList.count]
              have := remove_count t 0 _ t' hrm
              omega

unseal Rat.mul Rat.add Rat.sub Rat.inv in
theorem c10_negative_remove_witness :
    ((SectionList.empty.insert 0 5 10).1).wfB = true ∧
    Int.floor (-2 : Rat) < 0 ∧
    (((SectionList.empty.insert 0 5 10).1).remove (-2) 5).2 = 3 ∧
    (((SectionList.empty.insert 0 5 10).1).remove (-2) 5).1.count = 2 := by
  have h := c10_negative_remove (SectionList.empty.insert 0 5 10).1 (-2) 5
    (by decide) (by decide)
  refine ⟨by decide, by decide, ?_, ?_⟩
  · rw [h.1]
    decide
  · rw [h.2.2]
    decide

/-- Splicing a block of length `m` into a list at position `k` and then
cutting `[k, k+m)` back out restores the original list. -/
lemma splice_unsplice (S B : List Rat) (k : Nat) (hk : k ≤ S.length) :
    ((S.take k ++ B ++ S.drop k).take k) ++
      ((S.take k ++ B ++ S.drop k).drop (k + B.length)) = S := by
  have hA : (S.take k).length = k := by
    rw [List.length_take]
    omega
  have h1 : (S.take k ++ B ++ S.drop k).take k = S.take k := by
    rw [List.append_assoc]
    exact List.take_left' hA
  have h2 : (S.take k ++ B ++ S.drop k).drop (k + B.length) = S.drop k := by
    refine List.drop_left' ?_
    rw [List.length_append, hA]
  rw [h1, h2, List.take_append_drop]

unseal Rat.mul Rat.add Rat.sub Rat.inv in
/-- C5, counterexample: with a negative index the inserted range and
the removed range differ, so `insert i n s` followed by `remove i n`
need not restore the previous count.  From the empty list,
`insert (-2) 3 1` inserts 3 sections at index 0, but `remove (-2) 3`
only removes 1 section, leaving 2. -/
theorem c5_counterexample :
    ((SectionList.empty.insert (-2) 3 1).1.remove (-2) 3).1.count
        ≠ SectionList.empty.count :=
  by decide

/-- C5, amended: when the floored index lies inside `[0, count]` (so
that `insert` does not clamp it and `remove` charges no part of the
count outside the list), `insert idx cnt sz` followed by
`remove idx cnt` restores the previous count and total size. -/
theorem c5_insert_remove (l : SectionList) (idx cnt sz : Rat)
    (hw : l.wfB = true) (hi0 : 0 ≤ Int.floor idx)
    (hile : Int.floor idx ≤ l.count) :
    ((l.insert idx cnt sz).1.remove idx cnt).1.count = l.count ∧
    ((l.insert idx cnt sz).1.remove idx cnt).1.size = l.size := by
  obtain ⟨root⟩ := l
  rcases em (Int.floor cnt ≤ 0) with hc | hc
  · have h1 : SectionList.insert ⟨root⟩ idx cnt sz = (⟨root⟩, -1) := by
      simp only [SectionList.insert]
      rw [if_pos hc]
    rw [h1]
    cases root with
    | none => exact ⟨rfl, rfl⟩
    | some t =>
        have h2 : SectionList.remove ⟨some t⟩ idx cnt = (⟨some t⟩, 0) := by
          simp only [SectionList.remove]
          rw [if_pos hc]
        rw [h2]
        exact ⟨rfl, rfl⟩
  · cases root with
    | none =>
        simp only [SectionList.count] at hile
        have hidx : Int.floor idx = 0 := le_antisymm hile hi0
        have h1 : SectionList.insert ⟨none⟩ idx cnt sz =
            (⟨some (createLeaf (Int.floor cnt)
              (((Int.floor cnt : Int) : Rat) * max 0 sz))⟩, 0) := by
          simp only [SectionList.insert]
          rw [if_neg hc]
        rw [h1]
        have h2 : SectionList.remove
            ⟨some (createLeaf (Int.floor cnt)
              (((Int.floor cnt : Int) : Rat) * max 0 sz))⟩ idx cnt
            = (⟨none⟩, Int.floor cnt) := by
          simp only [SectionList.remove, createLeaf, Span.count]
          rw [if_neg hc, hidx]
          rw [if_neg (by omega)]
          have e2 : min (0 + Int.floor cnt - 1) (Int.floor cnt - 1)
              - max 0 0 + 1 = Int.floor cnt := by omega
          rw [e2]
          simp [Span.remove, Span.count]
        rw [h2]
        exact ⟨rfl, rfl⟩
    | some t =>
        simp only [SectionList.wfB] at hw
        simp only [SectionList.count] at hile ⊢
        simp only [SectionList.size]
        have hclamp : max 0 (min (Int.floor idx) t.count) = Int.floor idx := by
          omega
        have h1 : SectionList.insert ⟨some t⟩ idx cnt sz =
            (⟨some (Span.insert t (Int.floor idx) (Int.floor cnt)
              (max 0 sz))⟩, Int.floor idx) := by
          simp only [SectionList.insert]
          rw [if_neg hc, hclamp]
        rw [h1]
        have hw1 : (Span.insert t (Int.floor idx) (Int.floor cnt)
            (max 0 sz)).wfB = true :=
          insert_wfB t _ _ _ hw (by omega) hi0
        have hcnt1 : (Span.insert t (Int.floor idx) (Int.floor cnt)
            (max 0 sz)).count = t.count + Int.floor cnt := insert_count t _ _ _
        have h2 : SectionList.remove
            ⟨some (Span.insert t (Int.floor idx) (Int.floor cnt) (max 0 sz))⟩
              idx cnt
            = (⟨Span.remove
                (Span.insert t (Int.floor idx) (Int.floor cnt) (max 0 sz))
                (Int.floor idx) (Int.floor cnt)⟩, Int.floor cnt) := by
          simp only [SectionList.remove]
          rw [if_neg hc]
          rw [hcnt1]
          have e1 : max 0 (Int.floor idx) = Int.floor idx := by omega
          have e2 : min (Int.floor idx + Int.floor cnt - 1)
              (t.count + Int.floor cnt - 1) - max 0 (Int.floor idx) + 1
              = Int.floor cnt := by omega
          rw [if_neg (by omega), e2, e1]
        rw [h2]
        rcases hrm : Span.remove
            (Span.insert t (Int.floor idx) (Int.floor cnt) (max 0 sz))
            (Int.floor idx) (Int.floor cnt) with _ | t₂
        · exfalso
          have hfull := (remove_none_iff _ _ _).1 hrm
          have := wf_count_pos t hw
          omega
        · obtain ⟨w1, w2⟩ := remove_spec _ _ _ t₂ hw1 hi0 (by omega)
            (by omega) hrm
          rw [insert_secSizes t _ _ _ hw (by omega) hi0 hile] at w2
          have hlen : ((t.secSizes).length : Int) = t.count := secSizes_length t hw
          have hsum : (t.secSizes).sum = t.size := secSizes_sum t hw
          have hmn : ((Int.floor idx + Int.floor cnt).toNat)
              = (Int.floor idx).toNat
                + (List.replicate (Int.floor cnt).toNat (max 0 sz)).length := by
            rw [List.length_replicate]
            omega
          rw [hmn] at w2
          rw [splice_unsplice (t.secSizes) _ _ (by omega)] at w2
          constructor
          · show t₂.count = t.count
            have h5 := secSizes_length t₂ w1
            rw [w2] at h5
            omega
          · show t₂.size = t.size
            have h5 := secSizes_sum t₂ w1
            rw [w2, hsum] at h5
            exact h5.symm

unseal Rat.mul Rat.add Rat.sub Rat.inv in
theorem c5_insert_remove_witness :
    ((SectionList.empty.insert 0 2 7).1).wfB = true ∧
    (0 : Int) ≤ Int.floor (1 : Rat) ∧
    Int.floor (1 : Rat) ≤ ((SectionList.empty.insert 0 2 7).1).count ∧
    (((SectionList.empty.insert 0 2 7).1.insert 1 3 4).1.remove 1 3).1.count
        = ((SectionList.empty.insert 0 2 7).1).count ∧
    (((SectionList.empty.insert 0 2 7).1.insert 1 3 4).1.remove 1 3).1.size
        = ((SectionList.empty.insert 0 2 7).1).size := by
  have h := c5_insert_remove (SectionList.empty.insert 0 2 7).1 1 3 4
    (by decide) (by decide) (by decide)
  exact ⟨by decide, by decide, by decide, h.1, h.2⟩

/-- C4: `resize` is remove-then-insert of the actually removed count.
For every list state and all inputs, the state after
`resize idx cnt sz` equals the state after `remove idx cnt` followed by
`insert idx n sz` where `n` is the count the removal returned, `resize`
returns that `n`, and the total section count never changes. -/
theorem c4_resize_refines (l : SectionList) (idx cnt sz : Rat) :
    (l.resize idx cnt sz).1 =
        ((l.remove idx cnt).1.insert idx
          (((l.remove idx cnt).2 : Int) : Rat) sz).1 ∧
    (l.resize idx cnt sz).2 = (l.remove idx cnt).2 ∧
    (l.resize idx cnt sz).1.count = l.count := by
  obtain ⟨root⟩ := l
  cases root with
  | none =>
      have hrm : SectionList.remove ⟨none⟩ idx cnt = (⟨none⟩, 0) := rfl
      have hrs : SectionList.resize ⟨none⟩ idx cnt sz = (⟨none⟩, 0) := rfl
      rw [hrm, hrs]
      refine ⟨?_, rfl, rfl⟩
      dsimp only
      have h3 : SectionList.insert ⟨none⟩ idx (((0 : Int) : Rat)) sz
          = (⟨none⟩, -1) := by
        simp only [SectionList.insert]
        rw [if_pos (by simp)]
      rw [h3]
  | some t =>
      rcases em (Int.floor cnt ≤ 0) with hc | hc
      · have hrm : SectionList.remove ⟨some t⟩ idx cnt = (⟨some t⟩, 0) := by
          simp only [SectionList.remove]
          rw [if_pos hc]
        have hrs : SectionList.resize ⟨some t⟩ idx cnt sz = (⟨some t⟩, 0) := by
          simp only [SectionList.resize]
          rw [if_pos hc]
        rw [hrm, hrs]
        refine ⟨?_, rfl, rfl⟩
        dsimp only
        have h3 : SectionList.insert ⟨some t⟩ idx (((0 : Int) : Rat)) sz
            = (⟨some t⟩, -1) := by
          simp only [SectionList.insert]
          rw [if_pos (by simp)]
        rw [h3]
      · rcases em (min (Int.floor idx + Int.floor cnt - 1) (t.count - 1) -
            max 0 (Int.floor idx) + 1 ≤ 0) with hn | hn
        · have hrm : SectionList.remove ⟨some t⟩ idx cnt = (⟨some t⟩, 0) := by
            simp only [SectionList.remove]
            rw [if_neg hc, if_pos hn]
          have hrs : SectionList.resize ⟨some t⟩ idx cnt sz = (⟨some t⟩, 0) := by
            simp only [SectionList.resize]
            rw [if_neg hc, if_pos hn]
          rw [hrm, hrs]
          refine ⟨?_, rfl, rfl⟩
          dsimp only
          have h3 : SectionList.insert ⟨some t⟩ idx (((0 : Int) : Rat)) sz
              = (⟨some t⟩, -1) := by
            simp only [SectionList.insert]
            rw [if_pos (by simp)]
          rw [h3]
        · have hrm : SectionList.remove ⟨some t⟩ idx cnt =
              (⟨Span.remove t (max 0 (Int.floor idx))
                  (min (Int.floor idx + Int.floor cnt - 1) (t.count - 1) -
                    max 0 (Int.floor idx) + 1)⟩,
               min (Int.floor idx + Int.floor cnt - 1) (t.count - 1) -
                    max 0 (Int.floor idx) + 1) := by
            simp only [SectionList.remove]
            rw [if_neg hc, if_neg hn]
          rcases hsp : Span.remove t (max 0 (Int.floor idx))
              (min (Int.floor idx + Int.floor cnt - 1) (t.count - 1) -
                max 0 (Int.floor idx) + 1) with _ | t'
          · -- the removal empties the list
            have hfull := (remove_none_iff t _ _).1 hsp
            have hrs : SectionList.resize ⟨some t⟩ idx cnt sz =
                (⟨some (createLeaf
                    (min (Int.floor idx + Int.floor cnt - 1) (t.count - 1) -
                      max 0 (Int.floor idx) + 1)
                    (((min (Int.floor idx + Int.floor cnt - 1) (t.count - 1) -
                      max 0 (Int.floor idx) + 1 : Int) : Rat) * max 0 sz))⟩,
                 min (Int.floor idx + Int.floor cnt - 1) (t.count - 1) -
                      max 0 (Int.floor idx) + 1) := by
              simp only [SectionList.resize]
              rw [if_neg hc, if_neg hn, hsp]
            rw [hrm, hrs, hsp]
            refine ⟨?_, rfl, ?_⟩
            · dsimp only
              have h3 : SectionList.insert ⟨none⟩ idx
                  (((min (Int.floor idx + Int.floor cnt - 1) (t.count - 1) -
                    max 0 (Int.floor idx) + 1 : Int)) : Rat) sz
                  = (⟨some (createLeaf
                      (min (Int.floor idx + Int.floor cnt - 1) (t.count - 1) -
                        max 0 (Int.floor idx) + 1)
                      (((min (Int.floor idx + Int.floor cnt - 1) (t.count - 1) -
                        max 0 (Int.floor idx) + 1 : Int) : Rat) * max 0 sz))⟩,
                    0) := by
                simp only [SectionList.insert]
                rw [Int.floor_intCast, if_neg (by omega)]
              rw [h3]
            · simp only [createLeaf, Span.count, SectionList.count]
              omega
          · -- part of the list survives the removal
            have hcnt' := remove_count t _ _ t' hsp
            have hrs : SectionList.resize ⟨some t⟩ idx cnt sz =
                (⟨some (Span.insert t' (max 0 (Int.floor idx))
                    (min (Int.floor idx + Int.floor cnt - 1) (t.count - 1) -
                      max 0 (Int.floor idx) + 1) (max 0 sz))⟩,
                 min (Int.floor idx + Int.floor cnt - 1) (t.count - 1) -
                      max 0 (Int.floor idx) + 1) := by
              simp only [SectionList.resize]
              rw [if_neg hc, if_neg hn, hsp]
            rw [hrm, hrs, hsp]
            refine ⟨?_, rfl, ?_⟩
            · dsimp only
              have h3 : SectionList.insert ⟨some t'⟩ idx
                  (((min (Int.floor idx + Int.floor cnt - 1) (t.count - 1) -
                    max 0 (Int.floor idx) + 1 : Int)) : Rat) sz
                  = (⟨some (Span.insert t'
                      (max 0 (min (Int.floor idx) t'.count))
                      (min (Int.floor idx + Int.floor cnt - 1) (t.count - 1) -
                        max 0 (Int.floor idx) + 1) (max 0 sz))⟩,
                    max 0 (min (Int.floor idx) t'.count)) := by
                simp only [SectionList.insert]
                rw [Int.floor_intCast, if_neg (by omega)]
              rw [h3]
              have hieq : max 0 (min (Int.floor idx) t'.count)
                  = max 0 (Int.floor idx) := by omega
              rw [hieq]
            · show (Span.insert t' (max 0 (Int.floor idx))
                  (min (Int.floor idx + Int.floor cnt - 1) (t.count - 1) -
                    max 0 (Int.floor idx) + 1) (max 0 sz)).count
                  = SectionList.count ⟨some t⟩
              rw [insert_count]
              simp only [SectionList.count]
              omega

